import Mathlib

/-! # fork-off-substrate: snapshot fetchers, streaming writer and genesis merge

A shallow embedding of `src/index.js`.

* Text is a list of characters (a well-formed JavaScript string).
* The node (polkadot-js `api` / `provider`) is a parameter: a record of functions.
* The cache file `storage.json` is the text appended to the write stream; what the
  merge step reads back is `JSON.parse` of that text (line 132).
* `genesis.raw.top` is a string-keyed object, kept as an association list.
-/

namespace ForkOff

/-- A JavaScript string whose code units form well-formed Unicode text. -/
abbrev Text := List Char

/-! ## JSON values, `JSON.stringify` and `JSON.parse` -/

/-- JSON values that can occur in the cache file: literals, strings and arrays. -/
inductive Json where
  | null : Json
  | bool (b : Bool) : Json
  | str (s : Text) : Json
  | arr (xs : List Json) : Json

/-- Lowercase hexadecimal digit of a number below 16. -/
def hexDigit (n : Nat) : Char :=
  if n < 10 then Char.ofNat (48 + n) else Char.ofNat (87 + n)

/-- One character of a string as `JSON.stringify` quotes it (ECMAScript QuoteJSONString):
the two-character escapes, a `\u00xx` escape for the other control characters, and the
character itself otherwise. -/
def quoteChar (c : Char) : Text :=
  if c = '"' then ['\\', '"']
  else if c = '\\' then ['\\', '\\']
  else if c = '\x08' then ['\\', 'b']
  else if c = '\x0c' then ['\\', 'f']
  else if c = '\n' then ['\\', 'n']
  else if c = '\r' then ['\\', 'r']
  else if c = '\t' then ['\\', 't']
  else if c.toNat < 0x20 then
    ['\\', 'u', '0', '0', hexDigit (c.toNat / 16), hexDigit (c.toNat % 16)]
  else [c]

/-- Body of a quoted string: every character quoted in turn. -/
def quoteBody (s : Text) : Text := s.flatMap quoteChar

/-- A string between double quotes, as `JSON.stringify` writes it. -/
def quoteJSONString (s : Text) : Text := '"' :: quoteBody s ++ ['"']

mutual
/-- The text `JSON.stringify(v)` returns (no indentation argument). -/
def JSON.stringify : Json → Text
  | .null => ['n', 'u', 'l', 'l']
  | .bool true => ['t', 'r', 'u', 'e']
  | .bool false => ['f', 'a', 'l', 's', 'e']
  | .str s => quoteJSONString s
  | .arr xs => '[' :: JSON.stringifyElems xs ++ [']']
/-- The elements of an array, separated by commas. -/
def JSON.stringifyElems : List Json → Text
  | [] => []
  | x :: r =>
    match r with
    | [] => JSON.stringify x
    | _ :: _ => JSON.stringify x ++ ',' :: JSON.stringifyElems r
end

/-- JSON insignificant whitespace. -/
def isJsonWs (c : Char) : Bool := c = ' ' || c = '\t' || c = '\n' || c = '\r'

/-- Drop leading whitespace. -/
def skipWs : Text → Text
  | [] => []
  | c :: r => if isJsonWs c then skipWs r else c :: r

/-- Value of a hexadecimal digit, either case. -/
def hexVal (c : Char) : Option Nat :=
  if '0' ≤ c ∧ c ≤ '9' then some (c.toNat - 48)
  else if 'a' ≤ c ∧ c ≤ 'f' then some (c.toNat - 87)
  else if 'A' ≤ c ∧ c ≤ 'F' then some (c.toNat - 55)
  else none

/-- The character a two-character escape stands for. -/
def unescape (e : Char) : Option Char :=
  if e = '"' then some '"'
  else if e = '\\' then some '\\'
  else if e = '/' then some '/'
  else if e = 'b' then some '\x08'
  else if e = 'f' then some '\x0c'
  else if e = 'n' then some '\n'
  else if e = 'r' then some '\r'
  else if e = 't' then some '\t'
  else none

/-- Read a string after its opening quote: the decoded string and the text after the
closing quote. Raw control characters are rejected, as `JSON.parse` does; a `\u` escape
of a surrogate code unit has no counterpart in `Text` and is rejected as well. -/
def parseString : Text → Option (Text × Text)
  | [] => none
  | c :: r =>
    if c = '"' then some ([], r)
    else if c = '\\' then
      match r with
      | [] => none
      | e :: r1 =>
        if e = 'u' then
          match r1 with
          | a :: b :: c2 :: d :: r2 =>
            match hexVal a, hexVal b, hexVal c2, hexVal d with
            | some x, some y, some z, some w =>
              let n := ((x * 16 + y) * 16 + z) * 16 + w
              if 0xD800 ≤ n ∧ n ≤ 0xDFFF then none
              else (parseString r2).map (fun p => (Char.ofNat n :: p.1, p.2))
            | _, _, _, _ => none
          | _ => none
        else
          match unescape e with
          | some ch => (parseString r1).map (fun p => (ch :: p.1, p.2))
          | none => none
    else if c.toNat < 0x20 then none
    else (parseString r).map (fun p => (c :: p.1, p.2))

/-- Text `lit` followed by anything: the rest after `lit`, if `s` starts with it. -/
def stripLit (lit s : Text) : Option Text :=
  if lit.isPrefixOf s then some (s.drop lit.length) else none

mutual
/-- Read one JSON value with a bound on the nesting and element count still allowed;
returns the value and the unread text. -/
def parseValue : Nat → Text → Option (Json × Text)
  | 0, _ => none
  | n + 1, s =>
    match skipWs s with
    | [] => none
    | c :: r =>
      if c = '"' then (parseString r).map (fun p => (Json.str p.1, p.2))
      else if c = '[' then
        match skipWs r with
        | [] => none
        | c1 :: r1 =>
          if c1 = ']' then some (Json.arr [], r1)
          else (parseElems n (c1 :: r1)).map (fun p => (Json.arr p.1, p.2))
      else
        match stripLit ['n', 'u', 'l', 'l'] (c :: r) with
        | some r1 => some (Json.null, r1)
        | none =>
          match stripLit ['t', 'r', 'u', 'e'] (c :: r) with
          | some r1 => some (Json.bool true, r1)
          | none =>
            match stripLit ['f', 'a', 'l', 's', 'e'] (c :: r) with
            | some r1 => some (Json.bool false, r1)
            | none => none
/-- Read the elements of a non-empty array up to and including its closing bracket. -/
def parseElems : Nat → Text → Option (List Json × Text)
  | 0, _ => none
  | n + 1, s =>
    match parseValue n s with
    | none => none
    | some (v, r) =>
      match skipWs r with
      | [] => none
      | c :: r1 =>
        if c = ',' then (parseElems n r1).map (fun p => (v :: p.1, p.2))
        else if c = ']' then some ([v], r1)
        else none
end

/-- The value `JSON.parse(s)` returns, `none` when it throws. The bound given to the
reader is the length of the text plus one. Numbers and objects do not occur in the cache
file and are not read. -/
def JSON.parse (s : Text) : Option Json :=
  match parseValue (s.length + 1) s with
  | some (v, r) => if skipWs r = [] then some v else none
  | none => none

/-- `s.slice(1, -1)`: the string without its first and last character. -/
def slice1m1 (s : Text) : Text := (s.drop 1).dropLast

/-! ## The write stream and the module-level `separator` (lines 29-30, 92) -/

/-- The module-level variables `separator` and `chunksFetched`, and the text appended so
far to the write stream opened on `storage.json`. -/
structure Writer where
  separator : Bool
  chunksFetched : Nat
  stream : Text

/-- State at the start of `main`: `separator = false`, `chunksFetched = 0`, and an empty
file (the stream is only opened when `storage.json` does not exist). -/
def Writer.init : Writer := { separator := false, chunksFetched := 0, stream := [] }

/-- `stream.write(s)`. -/
def Writer.write (w : Writer) (s : Text) : Writer := { w with stream := w.stream ++ s }

/-- A `[key, value]` pair as the JSON array of two strings. -/
def pairJson (p : Text × Text) : Json := Json.arr [Json.str p.1, Json.str p.2]

/-- Lines 204-206 and 228-231:
`if (pairs.length > 0) { separator ? stream.write(",") : separator = true;
 stream.write(JSON.stringify(pairs).slice(1, -1)); }`. -/
def writePairs (w : Writer) (pairs : List (Text × Text)) : Writer :=
  if pairs.length > 0 then
    let w1 := if w.separator then w.write [','] else { w with separator := true }
    w1.write (slice1m1 (JSON.stringify (Json.arr (pairs.map pairJson))))
  else w

/-- Lines 92-97 around a fetcher that flushes the given batches one after the other:
`stream.write("[")`, the batches, `stream.write("]")`. The result is the file text. -/
def writeBatches (batches : List (List (Text × Text))) : Text :=
  (((batches.foldl writePairs (Writer.init.write ['['])).write [']'])).stream

/-! ## Paginated fetcher `fetchChunksMine` (lines 182-222) -/

/-- The node RPCs used by `fetchChunksMine`, for key objects `K`, storage change objects
`V` and block hashes `Blk`. -/
structure PagedApi (K V Blk : Type) where
  getKeysPaged : Text → Nat → Option K → Blk → List K
  queryStorageAt : List K → Blk → List V

/-- Why a run of the fetcher stops without a result. -/
inductive FetchError where
  | typeError : FetchError
  | outOfFuel : FetchError

/-- Lines 198-202: `keys.forEach((key, index) => pairs.push([String(key),
String(values[index].value)]))`. The two arrays are walked in step; a key with no value
at its index makes `values[index].value` throw (`none`). -/
def makePairs {K V : Type} (keyStr : K → Text) (valStr : V → Text) :
    List K → List V → Option (List (Text × Text))
  | [], _ => some []
  | _ :: _, [] => none
  | key :: keys, v :: values =>
    (makePairs keyStr valStr keys values).map (fun ps => (keyStr key, valStr v) :: ps)

/-- Variables of the loop of `fetchChunksMine`, with the cursors of the key-listing
requests issued so far (most recent last). -/
structure MineState (K : Type) where
  w : Writer
  start_key : Option K
  batchNumber : Nat
  keyRequests : List (Option K)

/-- The `while (true)` loop of lines 194-220, for at most `fuel` iterations. -/
def fetchLoop {K V Blk : Type} (BATCH_SIZE : Nat) (api : PagedApi K V Blk)
    (keyStr : K → Text) (valStr : V → Text) (blk : Blk) :
    Nat → MineState K → Except FetchError (MineState K)
  | 0, _ => .error .outOfFuel
  | fuel + 1, st =>
    let keys := api.getKeysPaged ['0', 'x'] BATCH_SIZE st.start_key blk
    let values := api.queryStorageAt keys blk
    match makePairs keyStr valStr keys values with
    | none => .error .typeError
    | some pairs =>
      let st1 : MineState K :=
        if pairs.length > 0 then
          { st with w := writePairs st.w pairs, start_key := keys.getLast? }
        else st
      let st2 : MineState K :=
        { st1 with batchNumber := st1.batchNumber + 1,
                   keyRequests := st.keyRequests ++ [st.start_key] }
      if keys.length < BATCH_SIZE then .ok st2
      else fetchLoop BATCH_SIZE api keyStr valStr blk fuel st2

/-- The function `fetchChunksMine(prefix, levelsRemaining, stream, at)` with the batch
size as a parameter; `prefix` and `levelsRemaining` are not used by the body. -/
def fetchChunksMineWith {K V Blk : Type} (BATCH_SIZE : Nat) (api : PagedApi K V Blk)
    (keyStr : K → Text) (valStr : V → Text) (blk : Blk) (fuel : Nat) (w : Writer) :
    Except FetchError (MineState K) :=
  fetchLoop BATCH_SIZE api keyStr valStr blk fuel
    { w := w, start_key := none, batchNumber := 1, keyRequests := [] }

/-- Line 189. -/
def BATCH_SIZE : Nat := 128

/-- The function `fetchChunksMine` as the source runs it, with `BATCH_SIZE = 128`. -/
def fetchChunksMine {K V Blk : Type} (api : PagedApi K V Blk)
    (keyStr : K → Text) (valStr : V → Text) (blk : Blk) (fuel : Nat) (w : Writer) :
    Except FetchError (MineState K) :=
  fetchChunksMineWith BATCH_SIZE api keyStr valStr blk fuel w

/-- Lines 92-97 with the paginated fetcher: the final loop state and the text of
`storage.json`. -/
def mainFetchMine {K V Blk : Type} (B : Nat) (api : PagedApi K V Blk)
    (keyStr : K → Text) (valStr : V → Text) (blk : Blk) (fuel : Nat) :
    Except FetchError (MineState K × Text) :=
  match fetchChunksMineWith B api keyStr valStr blk fuel (Writer.init.write ['[']) with
  | .error e => .error e
  | .ok st => .ok (st, (st.w.write [']']).stream)

/-- What a node holding the keys `ks` answers to `getKeysPaged`: the first `count` keys
strictly greater than the cursor, in the order of `ks`, from the start when the cursor
is null. -/
def pageAfter {K : Type} [LinearOrder K] (ks : List K) (count : Nat) (cursor : Option K) :
    List K :=
  match cursor with
  | none => ks.take count
  | some c => (ks.filter (fun k => c < k)).take count

/-! ## Hierarchical fetcher `fetchChunks` (lines 224-248), sequential mode -/

/-- `i.toString(16)`. -/
def toString16 (i : Nat) : Text := Nat.toDigits 16 i

/-- `s.padStart(len, fill)` for a one-character fill. -/
def padStart (len : Nat) (fill : Char) (s : Text) : Text :=
  List.replicate (len - s.length) fill ++ s

/-- `i.toString(16).padStart(2, "0")`. -/
def hexByte (i : Nat) : Text := padStart 2 '0' (toString16 i)

/-- The function `fetchChunks(prefix, levelsRemaining, stream, at)` with `QUICK_MODE`
unset; `levelsRemaining` is a natural number. `send pfx blk` is
`provider.send('state_getPairs', [prefix, at])`. -/
def fetchChunks {Blk : Type} (send : Text → Blk → List (Text × Text)) (blk : Blk) :
    Nat → Text → Writer → Writer
  | 0, pfx, w =>
    let pairs := send pfx blk
    let w1 := writePairs w pairs
    { w1 with chunksFetched := w1.chunksFetched + 1 }
  | levelsRemaining + 1, pfx, w =>
    (List.range 256).foldl
      (fun acc i => fetchChunks send blk levelsRemaining (pfx ++ hexByte i) acc) w

/-- Lines 92-97 with the hierarchical fetcher (the call commented out at line 94): the
text of `storage.json`. -/
def mainFetchChunks {Blk : Type} (send : Text → Blk → List (Text × Text)) (blk : Blk)
    (chunksLevel : Nat) : Text :=
  ((fetchChunks send blk chunksLevel ['0', 'x'] (Writer.init.write ['['])).write [']']).stream

/-- Hex digits of a byte string: two lowercase digits per byte. -/
def hexOfBytes (bs : List (Fin 256)) : Text := bs.flatMap (fun b => hexByte b.val)

/-- Line 132 applied to a well-formed cache: the entries of a parsed snapshot. -/
def snapshotJson (pairs : List (Text × Text)) : Json := Json.arr (pairs.map pairJson)

/-- The writer holds exactly the pairs `P` after the text `pre`: the stream is `pre`
followed by the comma-separated pairs, and `separator` tells whether any was written. -/
def Writer.Holds (pre : Text) (P : List (Text × Text)) (w : Writer) : Prop :=
  w.stream = pre ++ JSON.stringifyElems (P.map pairJson) ∧ w.separator = !P.isEmpty

/-- A node holding the pairs of `store`, listed in the order of `store`: keys are paged
after the cursor and a key resolves to the value stored with it. -/
def storeNode (store : List (Text × Text)) : PagedApi Text Text Unit where
  getKeysPaged := fun _ count cursor _ => pageAfter (store.map Prod.fst) count cursor
  queryStorageAt := fun keys _ => keys.map (fun k => (store.lookup k).getD [])

/-- Three pairs in ascending key order. -/
def demoStore : List (Text × Text) :=
  [(['0', 'x', '0', '0'], ['0', 'x', '0', '1']),
   (['0', 'x', '0', '1'], ['0', 'x', '0', '2']),
   (['0', 'x', '0', '2'], ['0', 'x', '0', '3'])]

/-- Two pairs in ascending key order. -/
def demoStore2 : List (Text × Text) :=
  [(['0', 'x', '0', '0'], ['0', 'x', '0', '1']),
   (['0', 'x', '0', '1'], ['0', 'x', '0', '2'])]

/-! ## Prefix registry (lines 46-47 and 101-116) -/

/-- Line 46: the one hardcoded prefix, `System.Account`. -/
def systemAccountPrefix : Text :=
  "0x26aa394eea5630e07c48ae0c9558cef7b99d880ec681799c0cf30e8886371da9".toList

/-- Line 46: the initial value of `prefixes`. -/
def prefixes : List Text := [systemAccountPrefix]

/-- The object `genesis.raw.top`: string keys with string values, in insertion order. -/
abbrev Top := List (Text × Text)

/-- `top[k]`, `none` for `undefined`. -/
def rawGet : Top → Text → Option Text
  | [], _ => none
  | (k1, v) :: r, k => if k1 = k then some v else rawGet r k

/-- `top[k] = v`: overwrite in place, or append a new property. -/
def rawSet : Top → Text → Text → Top
  | [], k, v => [(k, v)]
  | (k1, v1) :: r, k, v => if k1 = k then (k, v) :: r else (k1, v1) :: rawSet r k v

/-- `delete top[k]`. -/
def rawDelete (top : Top) (k : Text) : Top := top.filter (fun e => !(e.1 == k))

/-- The fields of a chain spec document the script reads or writes; `top` is
`genesis.raw.top`. -/
structure GenesisSpec where
  name : Text
  id : Text
  protocolId : Option Text
  relayChain : Option Text
  paraId : Option Nat
  top : Top

/-- `s.startsWith(pfx)`. -/
def startsWith (s pfx : Text) : Bool := pfx.isPrefixOf s

/-- Line 149: `prefixes.some((prefix) => i[0].startsWith(prefix))`. -/
def retained (prefixes : List Text) (i : Text × Text) : Bool :=
  prefixes.any (fun pfx => startsWith i.1 pfx)

/-- Lines 147-153: the filtered entries are inserted one after the other; returns the
mapping and `counter`. -/
def mergeStorage (prefixes : List Text) (storage : List (Text × Text)) (top : Top) :
    Top × Nat :=
  (storage.filter (retained prefixes)).foldl
    (fun acc kv => (rawSet acc.1 kv.1 kv.2, acc.2 + 1)) (top, 0)

/-- Line 159. -/
def lastRuntimeUpgradeKey : Text :=
  "0x26aa394eea5630e07c48ae0c9558cef7f9cce9c888469bb1a0dceaa129672ef8".toList

/-- Line 164. -/
def codeKey : Text := "0x3a636f6465".toList

/-- Line 167: `Staking.ForceEra`. -/
def forceEraKey : Text :=
  "0x5f3e4907f716ac89b6347d15ececedcaf7dad0317324aecae8744b87fc95f2f3".toList

/-- Line 171: the sudo key. -/
def sudoKey : Text :=
  "0x5c0d1176a568c1f92944340dbfed9e9c530ebca703c85910e7164cb7d1c9e47b".toList

/-- Line 171: the value written at the sudo key, the public key of `//Alice`. -/
def aliceSudoValue : Text :=
  "0xd43593c715fdd31c61141abd04a99fd6822c8558854ccde39a5684e7a56da27d".toList

/-- ECMAScript WhiteSpace and LineTerminator code points. -/
def isWhiteSpace (c : Char) : Bool :=
  let n := c.toNat
  n = 0x09 || n = 0x0A || n = 0x0B || n = 0x0C || n = 0x0D || n = 0x20 || n = 0xA0 ||
  n = 0x1680 || (0x2000 ≤ n && n ≤ 0x200A) || n = 0x2028 || n = 0x2029 || n = 0x202F ||
  n = 0x205F || n = 0x3000 || n = 0xFEFF

/-- `s.trim()`. -/
def trim (s : Text) : Text :=
  ((s.dropWhile isWhiteSpace).reverse.dropWhile isWhiteSpace).reverse

/-- Settled state of the promise an `async` function returns. -/
inductive Promise (α : Type) where
  | fulfilled (a : α) : Promise α
  | rejected (err : Text) : Promise α

/-- The node query used by the merge: `api.query.parasScheduler.sessionStartBlock.key()`
returns a key or throws. -/
structure QueryApi where
  sessionStartBlockKey : Except Text Text

/-- Lines 49-56, `async function fixParachinStates(api, forkedSpec)`. The body has no
`await`: it runs to its end, or to the exception, during the call. An exception while
building `skippedKeys` rejects the returned promise before anything is deleted. -/
def fixParachinStates (api : QueryApi) (forkedSpec : GenesisSpec) :
    GenesisSpec × Promise Unit :=
  match api.sessionStartBlockKey with
  | .error err => (forkedSpec, Promise.rejected err)
  | .ok k =>
    let skippedKeys := [k]
    ({ forkedSpec with top := skippedKeys.foldl rawDelete forkedSpec.top },
      Promise.fulfilled ())

/-- What the merge part of `main` leaves behind: the reported count, the document given
to `fs.writeFileSync(forkedSpecPath, ...)` if that line is reached, the exit code of
`process.exit()`, and the promise of `fixParachinStates`, which nothing awaits. -/
structure MergeRun where
  counter : Nat
  written : Option GenesisSpec
  exitCode : Nat
  fixPromise : Promise Unit

/-- Lines 137-177 of `main`. `storage`, `originalSpec` and `forkedSpec` are the three
parsed documents, `runtimeHex` the content read from `runtime.hex`, `alice` the value of
`process.env.ALICE || ''`. The call at line 161 is a statement of its own: the promise
is dropped and the next line runs whatever its state. -/
def mainMerge (api : QueryApi) (prefixes : List Text) (storage : List (Text × Text))
    (originalSpec forkedSpec : GenesisSpec) (runtimeHex alice : Text) : MergeRun :=
  let forkedSpec := { forkedSpec with name := originalSpec.name ++ "-fork".toList }
  let forkedSpec := { forkedSpec with id := originalSpec.id ++ "-fork".toList }
  let forkedSpec := { forkedSpec with protocolId := originalSpec.protocolId }
  let forkedSpec := { forkedSpec with relayChain := some "tokyo".toList }
  let forkedSpec := { forkedSpec with paraId := some 1000 }
  let merged := mergeStorage prefixes storage forkedSpec.top
  let counter := merged.2
  let forkedSpec := { forkedSpec with top := merged.1 }
  let forkedSpec := { forkedSpec with top := rawDelete forkedSpec.top lastRuntimeUpgradeKey }
  let fixed := fixParachinStates api forkedSpec
  let forkedSpec := fixed.1
  let forkedSpec :=
    { forkedSpec with top := rawSet forkedSpec.top codeKey ("0x".toList ++ trim runtimeHex) }
  let forkedSpec := { forkedSpec with top := rawSet forkedSpec.top forceEraKey "0x02".toList }
  let forkedSpec :=
    if alice ≠ [] then { forkedSpec with top := rawSet forkedSpec.top sudoKey aliceSudoValue }
    else forkedSpec
  { counter := counter, written := some forkedSpec, exitCode := 0, fixPromise := fixed.2 }

/-- A key under the `System.Account` prefix. -/
def demoAccountKey : Text := systemAccountPrefix ++ "00".toList

/-- A key under the prefix of the excluded module `Session`. -/
def demoSessionKey : Text := "0xcec5070d609dd3497f72bde07fc96ba000".toList

/-- An empty chain spec document. -/
def demoSpec : GenesisSpec :=
  { name := "dev".toList, id := "dev".toList, protocolId := none, relayChain := none,
    paraId := none, top := [] }

/-- The pairs the leaf requests of `fetchChunks` return, in the order the requests are
issued. -/
def leafPairs {Blk : Type} (send : Text → Blk → List (Text × Text)) (blk : Blk) :
    Nat → Text → List (Text × Text)
  | 0, pfx => send pfx blk
  | levelsRemaining + 1, pfx =>
    (List.range 256).flatMap (fun i => leafPairs send blk levelsRemaining (pfx ++ hexByte i))

/-- A node answering `state_getPairs` from `store`: the pairs whose key starts with the
prefix, in the order of `store`. -/
def storeSend (store : List (Text × Text)) (pfx : Text) (_blk : Unit) : List (Text × Text) :=
  store.filter (fun e => startsWith e.1 pfx)

/-- A key space holding only the runtime code key `:code`. -/
def codeStore : List (Text × Text) := [(codeKey, "0x00".toList)]

/-- Two keys of two bytes each. -/
def demoStore3 : List (Text × Text) :=
  [("0x0a01".toList, "0x01".toList), ("0xff02".toList, "0x02".toList)]

/-! ## Lemmas on quoting and reading strings -/

theorem hexVal_hexDigit (m : Nat) (h : m < 16) : hexVal (hexDigit m) = some m := by
  interval_cases m <;> rfl

theorem parseString_cons (c : Char) (r : Text) : parseString (c :: r) =
    if c = '"' then some ([], r)
    else if c = '\\' then
      match r with
      | [] => none
      | e :: r1 =>
        if e = 'u' then
          match r1 with
          | a :: b :: c2 :: d :: r2 =>
            match hexVal a, hexVal b, hexVal c2, hexVal d with
            | some x, some y, some z, some w =>
              let n := ((x * 16 + y) * 16 + z) * 16 + w
              if 0xD800 ≤ n ∧ n ≤ 0xDFFF then none
              else (parseString r2).map (fun p => (Char.ofNat n :: p.1, p.2))
            | _, _, _, _ => none
          | _ => none
        else
          match unescape e with
          | some ch => (parseString r1).map (fun p => (ch :: p.1, p.2))
          | none => none
    else if c.toNat < 0x20 then none
    else (parseString r).map (fun p => (c :: p.1, p.2)) := by
  conv_lhs => rw [parseString.eq_def]
  rfl

theorem parseString_quoteChar (c : Char) (t : Text) :
    parseString (quoteChar c ++ t) = (parseString t).map (fun p => (c :: p.1, p.2)) := by
  unfold quoteChar
  split_ifs with h1 h2 h3 h4 h5 h6 h7 h8
  · subst h1; simp only [List.cons_append, List.nil_append]; rw [parseString_cons]
    simp [unescape]
  · subst h2; simp only [List.cons_append, List.nil_append]; rw [parseString_cons]
    simp [unescape]
  · subst h3; simp only [List.cons_append, List.nil_append]; rw [parseString_cons]
    simp [unescape]
  · subst h4; simp only [List.cons_append, List.nil_append]; rw [parseString_cons]
    simp [unescape]
  · subst h5; simp only [List.cons_append, List.nil_append]; rw [parseString_cons]
    simp [unescape]
  · subst h6; simp only [List.cons_append, List.nil_append]; rw [parseString_cons]
    simp [unescape]
  · subst h7; simp only [List.cons_append, List.nil_append]; rw [parseString_cons]
    simp [unescape]
  · have hlt : c.toNat < 32 := h8
    have hd1 : hexVal (hexDigit (c.toNat / 16)) = some (c.toNat / 16) :=
      hexVal_hexDigit _ (by omega)
    have hd2 : hexVal (hexDigit (c.toNat % 16)) = some (c.toNat % 16) :=
      hexVal_hexDigit _ (by omega)
    have h0 : hexVal '0' = some 0 := rfl
    have hn : c.toNat / 16 * 16 + c.toNat % 16 = c.toNat := by omega
    simp only [List.cons_append, List.nil_append]
    rw [parseString_cons]
    simp [h0, hd1, hd2, hn]
    intro hs
    omega
  · simp only [List.cons_append, List.nil_append]
    rw [parseString_cons]
    simp [h1, h2, h8]

theorem parseString_quoteBody (s rest : Text) :
    parseString (quoteBody s ++ '"' :: rest) = some (s, rest) := by
  induction s with
  | nil => simp only [quoteBody, List.flatMap_nil, List.nil_append]; rw [parseString_cons]; simp
  | cons c s ih =>
    have : quoteBody (c :: s) = quoteChar c ++ quoteBody s := by simp [quoteBody]
    rw [this, List.append_assoc, parseString_quoteChar, ih]
    rfl

/-! ## Lemmas on reading values -/

theorem skipWs_cons_of_not_ws (c : Char) (r : Text) (h : isJsonWs c = false) :
    skipWs (c :: r) = c :: r := by
  simp [skipWs, h]

theorem parseValue_str (n : Nat) (r : Text) :
    parseValue (n + 1) ('"' :: r) = (parseString r).map (fun p => (Json.str p.1, p.2)) := by
  rw [parseValue.eq_def]
  simp [skipWs, isJsonWs]

theorem parseValue_empty_arr (n : Nat) (r : Text) :
    parseValue (n + 1) ('[' :: ']' :: r) = some (Json.arr [], r) := by
  rw [parseValue.eq_def]
  simp [skipWs, isJsonWs]

theorem parseValue_arr (n : Nat) (c : Char) (r : Text) (hws : isJsonWs c = false)
    (hc : c ≠ ']') :
    parseValue (n + 1) ('[' :: c :: r) =
      (parseElems n (c :: r)).map (fun p => (Json.arr p.1, p.2)) := by
  have h1 : skipWs ('[' :: c :: r) = '[' :: c :: r := skipWs_cons_of_not_ws _ _ rfl
  have h2 : skipWs (c :: r) = c :: r := skipWs_cons_of_not_ws _ _ hws
  rw [parseValue.eq_def]
  simp [h1, h2, hc]

theorem parseElems_succ (n : Nat) (s : Text) :
    parseElems (n + 1) s =
      match parseValue n s with
      | none => none
      | some (v, r) =>
        match skipWs r with
        | [] => none
        | c :: r1 =>
          if c = ',' then (parseElems n r1).map (fun p => (v :: p.1, p.2))
          else if c = ']' then some ([v], r1)
          else none := by
  conv_lhs => rw [parseElems.eq_def]

theorem parseValue_quoted (n : Nat) (s rest : Text) :
    parseValue (n + 1) (quoteJSONString s ++ rest) = some (Json.str s, rest) := by
  simp only [quoteJSONString, List.cons_append, List.append_assoc, List.nil_append]
  rw [parseValue_str, parseString_quoteBody]
  rfl

theorem stringify_pairJson (p : Text × Text) :
    JSON.stringify (pairJson p) =
      '[' :: (quoteJSONString p.1 ++ ',' :: (quoteJSONString p.2 ++ [']'])) := by
  simp [pairJson, JSON.stringify, JSON.stringifyElems]

theorem parseValue_pair (n : Nat) (p : Text × Text) (rest : Text) :
    parseValue (n + 4) (JSON.stringify (pairJson p) ++ rest) = some (pairJson p, rest) := by
  rw [stringify_pairJson]
  have hq : quoteJSONString p.1 = '"' :: (quoteBody p.1 ++ ['"']) := rfl
  simp only [List.cons_append, List.append_assoc, List.nil_append]
  rw [hq]
  simp only [List.cons_append]
  rw [parseValue_arr (n + 3) '"' _ rfl (by decide)]
  rw [← List.cons_append, ← hq]
  rw [show n + 3 = (n + 2) + 1 from rfl, parseElems_succ]
  rw [show n + 2 = (n + 1) + 1 from rfl, parseValue_quoted]
  simp only [skipWs_cons_of_not_ws ',' _ rfl]
  simp only [if_true]
  rw [parseElems_succ, parseValue_quoted]
  simp [skipWs_cons_of_not_ws ']' _ rfl, pairJson]

theorem stringifyElems_cons_cons (x y : Json) (r : List Json) :
    JSON.stringifyElems (x :: y :: r) =
      JSON.stringify x ++ ',' :: JSON.stringifyElems (y :: r) := by
  rw [JSON.stringifyElems]

theorem stringifyElems_nil : JSON.stringifyElems [] = [] := by
  rw [JSON.stringifyElems]

theorem stringifyElems_singleton (x : Json) : JSON.stringifyElems [x] = JSON.stringify x := by
  rw [JSON.stringifyElems]

theorem stringifyElems_append (xs ys : List Json) (hx : xs ≠ []) (hy : ys ≠ []) :
    JSON.stringifyElems (xs ++ ys) =
      JSON.stringifyElems xs ++ ',' :: JSON.stringifyElems ys := by
  induction xs with
  | nil => exact absurd rfl hx
  | cons x r ih =>
    cases r with
    | nil =>
      cases ys with
      | nil => exact absurd rfl hy
      | cons y t =>
        rw [stringifyElems_singleton]
        exact stringifyElems_cons_cons x y t
    | cons z t =>
      have h := ih (List.cons_ne_nil z t)
      rw [List.cons_append, List.cons_append, stringifyElems_cons_cons, ← List.cons_append, h,
        stringifyElems_cons_cons]
      simp

theorem parseElems_pairs (ps : List (Text × Text)) (hne : ps ≠ []) (n : Nat) (rest : Text) :
    parseElems (n + ps.length + 4) (JSON.stringifyElems (ps.map pairJson) ++ ']' :: rest) =
      some (ps.map pairJson, rest) := by
  induction ps generalizing n with
  | nil => exact absurd rfl hne
  | cons p r ih =>
    cases r with
    | nil =>
      simp only [List.map_cons, List.map_nil, List.length_cons, List.length_nil]
      rw [stringifyElems_singleton]
      rw [show n + (0 + 1) + 4 = (n + 4) + 1 from by omega, parseElems_succ, parseValue_pair]
      simp [skipWs_cons_of_not_ws ']' _ rfl]
    | cons q t =>
      have h := ih (List.cons_ne_nil q t) n
      simp only [List.map_cons, List.length_cons] at h ⊢
      rw [stringifyElems_cons_cons, List.append_assoc]
      rw [show n + (t.length + 1 + 1) + 4 = (n + t.length + 1 + 4) + 1 from by omega,
        parseElems_succ]
      rw [show n + t.length + 1 + 4 = (n + t.length + 1) + 4 from by omega, parseValue_pair]
      simp only [List.cons_append, skipWs_cons_of_not_ws ',' _ rfl, if_true]
      rw [show n + t.length + 1 + 4 = n + (t.length + 1) + 4 from by omega, h]
      rfl

theorem length_stringify_pairJson (p : Text × Text) :
    7 ≤ (JSON.stringify (pairJson p)).length := by
  rw [stringify_pairJson]
  simp only [quoteJSONString, List.length_cons, List.length_append, List.length_nil]
  omega

theorem length_stringifyElems_pairs (ps : List (Text × Text)) :
    7 * ps.length ≤ (JSON.stringifyElems (ps.map pairJson)).length := by
  induction ps with
  | nil => simp
  | cons p r ih =>
    have hp := length_stringify_pairJson p
    cases r with
    | nil =>
      simp only [List.map_cons, List.map_nil, stringifyElems_singleton, List.length_cons,
        List.length_nil]
      omega
    | cons q t =>
      simp only [List.map_cons, List.length_cons] at ih ⊢
      rw [stringifyElems_cons_cons]
      simp only [List.length_cons, List.length_append]
      omega

theorem stringifyElems_pairs_head (p : Text × Text) (r : List (Text × Text)) :
    ∃ t, JSON.stringifyElems ((p :: r).map pairJson) = '[' :: t := by
  cases r with
  | nil =>
    rw [List.map_cons, List.map_nil, stringifyElems_singleton, stringify_pairJson]
    exact ⟨_, rfl⟩
  | cons q t =>
    rw [List.map_cons, List.map_cons, stringifyElems_cons_cons, stringify_pairJson]
    rw [List.cons_append]
    exact ⟨_, rfl⟩

/-- Reading back a cache file: the bracketed, comma-separated pairs parse to the pairs. -/
theorem parse_snapshot (ps : List (Text × Text)) :
    JSON.parse ('[' :: (JSON.stringifyElems (ps.map pairJson) ++ [']'])) =
      some (snapshotJson ps) := by
  cases ps with
  | nil =>
    simp only [List.map_nil, JSON.stringifyElems, List.nil_append, JSON.parse, List.length_cons,
      List.length_nil]
    rw [parseValue_empty_arr]
    simp [skipWs, snapshotJson]
  | cons p r =>
    obtain ⟨t, ht⟩ := stringifyElems_pairs_head p r
    have hlen := length_stringifyElems_pairs (p :: r)
    unfold JSON.parse
    generalize hb : JSON.stringifyElems ((p :: r).map pairJson) = body at ht hlen
    obtain ⟨k, hk⟩ : ∃ k, ('[' :: (body ++ [']'])).length = k + (p :: r).length + 4 := by
      refine ⟨('[' :: (body ++ [']'])).length - (p :: r).length - 4, ?_⟩
      simp only [List.length_cons, List.length_append, List.length_nil] at hlen ⊢
      omega
    rw [hk]
    subst ht
    rw [List.cons_append, parseValue_arr _ '[' _ rfl (by decide), ← List.cons_append, ← hb,
      parseElems_pairs (p :: r) (List.cons_ne_nil _ _) k []]
    simp [skipWs, snapshotJson]

/-! ## Lemmas on the streaming writer -/

theorem slice1m1_stringify_arr (xs : List Json) :
    slice1m1 (JSON.stringify (Json.arr xs)) = JSON.stringifyElems xs := by
  simp [slice1m1, JSON.stringify]

theorem writePairs_nil (w : Writer) : writePairs w [] = w := by
  simp [writePairs]

theorem writePairs_chunksFetched (w : Writer) (ps : List (Text × Text)) :
    (writePairs w ps).chunksFetched = w.chunksFetched := by
  unfold writePairs
  split_ifs <;> simp [Writer.write]

theorem Writer.Holds.writePairs {pre : Text} {P : List (Text × Text)} {w : Writer}
    (h : Writer.Holds pre P w) (ps : List (Text × Text)) :
    Writer.Holds pre (P ++ ps) (ForkOff.writePairs w ps) := by
  obtain ⟨hs, hsep⟩ := h
  cases ps with
  | nil => rw [writePairs_nil, List.append_nil]; exact ⟨hs, hsep⟩
  | cons q t =>
    cases P with
    | nil =>
      have hsep' : w.separator = false := by simpa using hsep
      simp [Writer.Holds, ForkOff.writePairs, Writer.write, hsep', hs, slice1m1_stringify_arr,
        stringifyElems_nil, -List.map_cons]
    | cons p r =>
      have hsep' : w.separator = true := by simpa using hsep
      have happ := stringifyElems_append ((p :: r).map pairJson) ((q :: t).map pairJson)
        (by simp) (by simp)
      simp only [Writer.Holds, ForkOff.writePairs, Writer.write, hsep', hs,
        slice1m1_stringify_arr, List.map_append, happ]
      simp

theorem Writer.Holds.foldl {pre : Text} (batches : List (List (Text × Text))) :
    ∀ {P : List (Text × Text)} {w : Writer}, Writer.Holds pre P w →
      Writer.Holds pre (P ++ batches.flatten) (batches.foldl ForkOff.writePairs w) := by
  induction batches with
  | nil => intro P w h; simpa using h
  | cons b bs ih =>
    intro P w h
    have := ih (h.writePairs b)
    simpa [List.append_assoc] using this

theorem Writer.holds_init_bracket : Writer.Holds ['['] [] (Writer.init.write ['[']) := by
  simp [Writer.Holds, Writer.init, Writer.write, JSON.stringifyElems]

/-- The file text once the closing bracket is written parses to the pairs held. -/
theorem Writer.Holds.parse_close {P : List (Text × Text)} {w : Writer}
    (h : Writer.Holds ['['] P w) :
    JSON.parse (w.write [']']).stream = some (snapshotJson P) := by
  have : (w.write [']']).stream = '[' :: (JSON.stringifyElems (P.map pairJson) ++ [']']) := by
    simp [Writer.write, h.1]
  rw [this, parse_snapshot]

/-- C3 (writer well-formedness). Starting from `separator = false`, for every sequence
of batches of string pairs, empty batches included anywhere, the text made of `[`, the
batches flushed in turn and `]` parses as the JSON array whose elements are the
concatenation, in order, of the elements of all the batches. -/
theorem C3_writer_well_formed (batches : List (List (Text × Text))) :
    JSON.parse (writeBatches batches) = some (Json.arr (batches.flatten.map pairJson)) := by
  have h := Writer.Holds.foldl batches Writer.holds_init_bracket
  have := h.parse_close
  simpa [writeBatches, snapshotJson] using this

/-! ## Lemmas on the paginated fetcher -/

theorem makePairs_map {K V : Type} (keyStr : K → Text) (valStr : V → Text) (val : K → V)
    (keys : List K) :
    makePairs keyStr valStr keys (keys.map val) =
      some (keys.map (fun k => (keyStr k, valStr (val k)))) := by
  induction keys with
  | nil => rfl
  | cons k r ih => simp [makePairs, ih]

theorem filter_gt_last {K : Type} [LinearOrder K] (done todo : List K) (c : K)
    (hs : (done ++ todo).Sorted (· < ·)) (hc : done.getLast? = some c) :
    (done ++ todo).filter (fun k => c < k) = todo := by
  obtain ⟨ini, rfl⟩ := List.getLast?_eq_some_iff.mp hc
  have hp := List.pairwise_append.mp hs
  have hp1 := List.pairwise_append.mp hp.1
  have hdone : (ini ++ [c]).filter (fun k => decide (c < k)) = [] := by
    rw [List.filter_eq_nil_iff]
    intro a ha
    rcases List.mem_append.mp ha with h | h
    · have := hp1.2.2 a h c (by simp)
      simpa using le_of_lt this
    · have : a = c := by simpa using h
      simp [this]
  have htodo : todo.filter (fun k => decide (c < k)) = todo := by
    rw [List.filter_eq_self]
    intro a ha
    simpa using hp.2.2 c (by simp) a ha
  rw [List.filter_append, hdone, htodo, List.nil_append]

theorem pageAfter_split {K : Type} [LinearOrder K] (done todo : List K) (B : Nat)
    (hs : (done ++ todo).Sorted (· < ·)) :
    pageAfter (done ++ todo) B done.getLast? = todo.take B := by
  cases hc : done.getLast? with
  | none =>
    have : done = [] := by simpa using hc
    subst this
    simp [pageAfter]
  | some c =>
    simp only [pageAfter]
    rw [filter_gt_last done todo c hs hc]

/-- One run of the loop from a state that has consumed `done` and still has `todo` to
fetch: with enough fuel it stops, holding every pair, after `todo.length / B + 1` more
key-listing requests. -/
theorem fetchLoop_spec {K V Blk : Type} [LinearOrder K] (B : Nat) (hB : 1 ≤ B)
    (api : PagedApi K V Blk) (keyStr : K → Text) (valStr : V → Text) (blk : Blk)
    (ks : List K) (val : K → V) (hs : ks.Sorted (· < ·))
    (hkeys : ∀ c, api.getKeysPaged ['0', 'x'] B c blk = pageAfter ks B c)
    (hvals : ∀ keys, api.queryStorageAt keys blk = keys.map val) (pre : Text) :
    ∀ (fuel : Nat) (todo done : List K) (st : MineState K),
      ks = done ++ todo → st.start_key = done.getLast? →
      Writer.Holds pre (done.map (fun k => (keyStr k, valStr (val k)))) st.w →
      todo.length / B + 1 ≤ fuel →
      ∃ st1, fetchLoop B api keyStr valStr blk fuel st = .ok st1 ∧
        Writer.Holds pre (ks.map (fun k => (keyStr k, valStr (val k)))) st1.w ∧
        st1.batchNumber = st.batchNumber + (todo.length / B + 1) ∧
        st1.keyRequests.length = st.keyRequests.length + (todo.length / B + 1) ∧
        st1.w.chunksFetched = st.w.chunksFetched := by
  intro fuel
  induction fuel with
  | zero => intro todo done st _ _ _ hf; exact absurd hf (Nat.not_succ_le_zero _)
  | succ fuel ih =>
    intro todo done st hks hkey hw hf
    have hkeys1 : api.getKeysPaged ['0', 'x'] B st.start_key blk = todo.take B := by
      rw [hkeys, hkey, hks, pageAfter_split done todo B (hks ▸ hs)]
    rw [fetchLoop, hkeys1, hvals, makePairs_map]
    simp only [List.length_map, List.length_take]
    by_cases hlt : min B todo.length < B
    · -- last batch
      have htl : todo.length < B := by omega
      have htake : todo.take B = todo := List.take_of_length_le (by omega)
      have hdiv : todo.length / B = 0 := Nat.div_eq_of_lt htl
      rw [if_pos hlt]
      refine ⟨_, rfl, ?_, ?_, ?_, ?_⟩
      · by_cases hpos : 0 < min B todo.length
        · simp only [gt_iff_lt, hpos, if_true, htake]
          have := hw.writePairs (todo.map (fun k => (keyStr k, valStr (val k))))
          rw [← List.map_append, ← hks] at this
          exact this
        · have : todo = [] := List.length_eq_zero.mp (by omega)
          subst this
          simp only [gt_iff_lt, hpos, if_false]
          simpa [hks] using hw
      · by_cases hpos : 0 < min B todo.length <;> simp [hpos, hdiv]
      · by_cases hpos : 0 < min B todo.length <;> simp [hpos, hdiv]
      · by_cases hpos : 0 < min B todo.length <;>
          simp [hpos, writePairs_chunksFetched]
    · -- a full batch, the loop goes on
      have htl : B ≤ todo.length := by omega
      have hpos : 0 < min B todo.length := by omega
      rw [if_neg hlt]
      simp only [gt_iff_lt, hpos, if_true]
      have hne : todo.take B ≠ [] := by
        intro h
        have := congrArg List.length h
        simp only [List.length_take, List.length_nil] at this
        omega
      have hsplit : ks = (done ++ todo.take B) ++ todo.drop B := by
        rw [List.append_assoc, List.take_append_drop, hks]
      have hdiv : todo.length / B = (todo.drop B).length / B + 1 := by
        rw [List.length_drop]
        exact Nat.div_eq_sub_div (by omega) htl
      obtain ⟨st1, h1, h2, h3, h4, h5⟩ := ih (todo.drop B) (done ++ todo.take B)
        { w := writePairs st.w ((todo.take B).map (fun k => (keyStr k, valStr (val k)))),
          start_key := (todo.take B).getLast?,
          batchNumber := st.batchNumber + 1,
          keyRequests := st.keyRequests ++ [st.start_key] }
        hsplit (by simp [List.getLast?_append_of_ne_nil _ hne])
        (by
          have := hw.writePairs ((todo.take B).map (fun k => (keyStr k, valStr (val k))))
          rw [← List.map_append] at this
          exact this)
        (by omega)
      refine ⟨st1, h1, h2, ?_, ?_, ?_⟩
      · rw [h3, hdiv]; simp only; omega
      · rw [h4, hdiv]; simp only [List.length_append, List.length_singleton]; omega
      · rw [h5]; simp only [writePairs_chunksFetched]

theorem div_succ_eq_ceil_iff (N B : Nat) (hB : 1 ≤ B) :
    N / B + 1 = (N + B - 1) / B ↔ ¬ B ∣ N := by
  have hdm := Nat.div_add_mod N B
  have hpos : 0 < B := hB
  rw [Nat.dvd_iff_mod_eq_zero]
  by_cases hr : N % B = 0
  · have h1 : N + B - 1 = B * (N / B) + (B - 1) := by omega
    have h2 : (B - 1) / B = 0 := Nat.div_eq_of_lt (by omega)
    rw [h1, Nat.mul_add_div hpos, h2]
    simp [hr]
  · have hlt : N % B < B := Nat.mod_lt _ hpos
    have h1 : N + B - 1 = B * (N / B + 1) + (N % B - 1) := by
      rw [Nat.mul_add, Nat.mul_one]; omega
    have h2 : (N % B - 1) / B = 0 := Nat.div_eq_of_lt (by omega)
    rw [h1, Nat.mul_add_div hpos, h2]
    simp [hr]

/-- The whole fetch section of `main` against a node that pages the sorted key space
`ks` correctly. -/
theorem mainFetchMine_spec {K V Blk : Type} [LinearOrder K] (B : Nat) (hB : 1 ≤ B)
    (api : PagedApi K V Blk) (keyStr : K → Text) (valStr : V → Text) (blk : Blk)
    (ks : List K) (val : K → V) (hs : ks.Sorted (· < ·))
    (hkeys : ∀ c, api.getKeysPaged ['0', 'x'] B c blk = pageAfter ks B c)
    (hvals : ∀ keys, api.queryStorageAt keys blk = keys.map val)
    (fuel : Nat) (hfuel : ks.length / B + 1 ≤ fuel) :
    ∃ st, mainFetchMine B api keyStr valStr blk fuel = .ok (st, (st.w.write [']']).stream) ∧
      Writer.Holds ['['] (ks.map (fun k => (keyStr k, valStr (val k)))) st.w ∧
      st.batchNumber = ks.length / B + 2 ∧
      st.keyRequests.length = ks.length / B + 1 := by
  obtain ⟨st, h1, h2, h3, h4, _⟩ := fetchLoop_spec B hB api keyStr valStr blk ks val hs hkeys
    hvals ['['] fuel ks []
    { w := Writer.init.write ['['], start_key := none, batchNumber := 1, keyRequests := [] }
    rfl rfl Writer.holds_init_bracket hfuel
  refine ⟨st, ?_, h2, ?_, ?_⟩
  · simp only [mainFetchMine, fetchChunksMineWith, h1]
  · rw [h3]; simp only; omega
  · rw [h4]; simp

/-- C1 (pagination completeness). Against a node whose `getKeysPaged("0x", B, cursor, at)`
returns the first `B` keys strictly greater than the cursor of a strictly ascending key
space `ks` (from the start when the cursor is null) and whose `queryStorageAt` resolves
each key to `val key` at the same block, for every batch size `B >= 1` the fetch section
returns, and the file it wrote is `[`, the pairs of all the keys of `ks` in order, each
key once with its resolved value, then `]`; the merge step reads back exactly these
pairs. -/
theorem C1_pagination_complete {K V Blk : Type} [LinearOrder K] (B : Nat) (hB : 1 ≤ B)
    (api : PagedApi K V Blk) (keyStr : K → Text) (valStr : V → Text) (blk : Blk)
    (ks : List K) (val : K → V) (hs : ks.Sorted (· < ·))
    (hkeys : ∀ c, api.getKeysPaged ['0', 'x'] B c blk = pageAfter ks B c)
    (hvals : ∀ keys, api.queryStorageAt keys blk = keys.map val)
    (fuel : Nat) (hfuel : ks.length / B + 1 ≤ fuel) :
    ∃ st text, mainFetchMine B api keyStr valStr blk fuel = .ok (st, text) ∧
      text = '[' :: (JSON.stringifyElems
        ((ks.map (fun k => (keyStr k, valStr (val k)))).map pairJson) ++ [']']) ∧
      JSON.parse text =
        some (Json.arr ((ks.map (fun k => (keyStr k, valStr (val k)))).map pairJson)) := by
  obtain ⟨st, h1, h2, _, _⟩ := mainFetchMine_spec B hB api keyStr valStr blk ks val hs hkeys
    hvals fuel hfuel
  refine ⟨st, _, h1, ?_, ?_⟩
  · simp [Writer.write, h2.1]
  · exact h2.parse_close

/-- C1 at a node holding three keys, with batch size 2. -/
theorem C1_pagination_complete_witness :
    ∃ st text, mainFetchMine 2 (storeNode demoStore) id id () 5 = .ok (st, text) ∧
      text = '[' :: (JSON.stringifyElems
        (((demoStore.map Prod.fst).map
          (fun k => (id k, id ((demoStore.lookup k).getD [])))).map pairJson) ++ [']']) ∧
      JSON.parse text =
        some (Json.arr (((demoStore.map Prod.fst).map
          (fun k => (id k, id ((demoStore.lookup k).getD [])))).map pairJson)) :=
  C1_pagination_complete 2 (by decide) (storeNode demoStore) id id ()
    (demoStore.map Prod.fst) (fun k => (demoStore.lookup k).getD []) (by decide)
    (fun _ => rfl) (fun _ => rfl) 5 (by decide)

/-- C2 (batch count, amended). Against a node that pages the strictly ascending key space
`ks` correctly, for every batch size `B >= 1` the loop stops and has issued exactly
`floor(N / B) + 1` key-listing requests, `N` the number of keys; this is `ceil(N / B)`
exactly when `B` does not divide `N`. -/
theorem C2_batch_count {K V Blk : Type} [LinearOrder K] (B : Nat) (hB : 1 ≤ B)
    (api : PagedApi K V Blk) (keyStr : K → Text) (valStr : V → Text) (blk : Blk)
    (ks : List K) (val : K → V) (hs : ks.Sorted (· < ·))
    (hkeys : ∀ c, api.getKeysPaged ['0', 'x'] B c blk = pageAfter ks B c)
    (hvals : ∀ keys, api.queryStorageAt keys blk = keys.map val)
    (fuel : Nat) (hfuel : ks.length / B + 1 ≤ fuel) :
    ∃ st text, mainFetchMine B api keyStr valStr blk fuel = .ok (st, text) ∧
      st.keyRequests.length = ks.length / B + 1 ∧
      st.batchNumber = ks.length / B + 2 ∧
      (st.keyRequests.length = (ks.length + B - 1) / B ↔ ¬ B ∣ ks.length) := by
  obtain ⟨st, h1, _, h3, h4⟩ := mainFetchMine_spec B hB api keyStr valStr blk ks val hs hkeys
    hvals fuel hfuel
  exact ⟨st, _, h1, h4, h3, by rw [h4]; exact div_succ_eq_ceil_iff _ _ hB⟩

/-- C2 at a node holding three keys, with batch size 2. -/
theorem C2_batch_count_witness :
    ∃ st text, mainFetchMine 2 (storeNode demoStore) id id () 5 = .ok (st, text) ∧
      st.keyRequests.length = (demoStore.map Prod.fst).length / 2 + 1 ∧
      st.batchNumber = (demoStore.map Prod.fst).length / 2 + 2 ∧
      (st.keyRequests.length = ((demoStore.map Prod.fst).length + 2 - 1) / 2 ↔
        ¬ 2 ∣ (demoStore.map Prod.fst).length) :=
  C2_batch_count 2 (by decide) (storeNode demoStore) id id ()
    (demoStore.map Prod.fst) (fun k => (demoStore.lookup k).getD []) (by decide)
    (fun _ => rfl) (fun _ => rfl) 5 (by decide)

/-- C2, the claim as stated fails: with two keys and batch size 2 the node pages
correctly, the loop issues two key-listing requests (the second returns no key), and
`ceil(2 / 2) = 1`. -/
theorem C2_counterexample :
    ∃ st text, mainFetchMine 2 (storeNode demoStore2) id id () 5 = .ok (st, text) ∧
      st.keyRequests = [none, some ['0', 'x', '0', '1']] ∧
      st.keyRequests.length ≠ (demoStore2.length + 2 - 1) / 2 :=
  ⟨_, _, rfl, rfl, by decide⟩

/-! ## Lemmas on the raw-top mapping and the merge -/

theorem rawGet_rawSet (top : Top) (k k1 v : Text) :
    rawGet (rawSet top k v) k1 = if k = k1 then some v else rawGet top k1 := by
  induction top with
  | nil => simp [rawSet, rawGet]
  | cons e r ih =>
    obtain ⟨ke, ve⟩ := e
    by_cases h : ke = k
    · subst h
      by_cases h1 : ke = k1 <;> simp [rawSet, rawGet, h1]
    · by_cases h1 : ke = k1
      · subst h1
        simp [rawSet, rawGet, h, Ne.symm h]
      · simp [rawSet, rawGet, h, h1, ih]

theorem rawDelete_cons (e : Text × Text) (r : Top) (k : Text) :
    rawDelete (e :: r) k = if e.1 = k then rawDelete r k else e :: rawDelete r k := by
  by_cases h : e.1 = k <;> simp [rawDelete, List.filter_cons, h]

theorem rawGet_rawDelete (top : Top) (k k1 : Text) :
    rawGet (rawDelete top k) k1 = if k = k1 then none else rawGet top k1 := by
  induction top with
  | nil => simp [rawDelete, rawGet]
  | cons e r ih =>
    obtain ⟨ke, ve⟩ := e
    rw [rawDelete_cons]
    by_cases h : ke = k
    · subst h
      by_cases h1 : ke = k1
      · subst h1; simpa using ih
      · simp [rawGet, h1, ih]
    · by_cases h1 : ke = k1
      · subst h1
        simp [rawGet, h, Ne.symm h]
      · simp [rawGet, h, h1, ih]

theorem keys_distinct :
    codeKey ≠ lastRuntimeUpgradeKey ∧ forceEraKey ≠ lastRuntimeUpgradeKey ∧
    sudoKey ≠ lastRuntimeUpgradeKey ∧ codeKey ≠ forceEraKey ∧ codeKey ≠ sudoKey ∧
    forceEraKey ≠ sudoKey := by
  decide

theorem foldl_insert (L : List (Text × Text)) :
    ∀ (top : Top) (n : Nat) (k : Text),
      rawGet (L.foldl (fun acc kv => (rawSet acc.1 kv.1 kv.2, acc.2 + 1)) (top, n)).1 k =
        (match (L.filter (fun e => e.1 == k)).getLast? with
          | some e => some e.2
          | none => rawGet top k) ∧
      (L.foldl (fun acc kv => (rawSet acc.1 kv.1 kv.2, acc.2 + 1)) (top, n)).2 =
        n + L.length := by
  induction L with
  | nil => intro top n k; simp
  | cons e r ih =>
    intro top n k
    obtain ⟨h1, h2⟩ := ih (rawSet top e.1 e.2) (n + 1) k
    simp only [List.foldl_cons, List.length_cons]
    refine ⟨?_, by rw [h2]; omega⟩
    rw [h1, rawGet_rawSet]
    by_cases hk : e.1 = k
    · simp only [hk, if_true, List.filter_cons, beq_self_eq_true]
      cases hf : r.filter (fun e => e.1 == k) with
      | nil => simp
      | cons a t =>
        have hx : (a :: t).getLast? = some ((a :: t).getLast (List.cons_ne_nil a t)) :=
          List.getLast?_eq_getLast _ _
        simp [List.getLast?_cons_cons, hx]
    · simp [hk, List.filter_cons]

/-- C4 (prefix filtering). After the filter-and-insert step the mapping holds at each key
`k` the value of the last snapshot entry with key `k` whose key starts with a retained
prefix, and what the template held at `k` when there is no such entry; the reported
count is the number of snapshot entries whose key starts with a retained prefix. With a
`System.Account` entry of value `0x01` and an entry under the prefix of the excluded
`Session` module, only the first is inserted and the count is 1. -/
theorem C4_prefix_filtering :
    (∀ (prefixes : List Text) (storage : List (Text × Text)) (top : Top),
      (∀ k, rawGet (mergeStorage prefixes storage top).1 k =
        (match (storage.filter (fun i => retained prefixes i && i.1 == k)).getLast? with
          | some e => some e.2
          | none => rawGet top k)) ∧
      (mergeStorage prefixes storage top).2 = (storage.filter (retained prefixes)).length) ∧
    mergeStorage prefixes
        [(demoAccountKey, "0x01".toList), (demoSessionKey, "0x02".toList)] [] =
      ([(demoAccountKey, "0x01".toList)], 1) := by
  refine ⟨fun prefixes storage top => ⟨fun k => ?_, ?_⟩, by decide⟩
  · have h := (foldl_insert (storage.filter (retained prefixes)) top 0 k).1
    rw [List.filter_filter] at h
    have hfun : (fun a : Text × Text => (a.1 == k && retained prefixes a)) =
        (fun i => retained prefixes i && i.1 == k) := by
      funext a; exact Bool.and_comm _ _
    rw [hfun] at h
    exact h
  · have h := (foldl_insert (storage.filter (retained prefixes)) top 0 []).2
    simpa [mergeStorage] using h

/-- The final mapping of the merge, step by step. -/
theorem mainMerge_written (api : QueryApi) (prefixes : List Text)
    (storage : List (Text × Text)) (originalSpec forkedSpec : GenesisSpec)
    (runtimeHex alice : Text) :
    ∃ doc, (mainMerge api prefixes storage originalSpec forkedSpec runtimeHex alice).written =
        some doc ∧
      doc.name = originalSpec.name ++ "-fork".toList ∧
      doc.id = originalSpec.id ++ "-fork".toList ∧
      doc.protocolId = originalSpec.protocolId ∧
      doc.relayChain = some "tokyo".toList ∧
      doc.paraId = some 1000 ∧
      doc.top =
        (fun t5 => if alice ≠ [] then rawSet t5 sudoKey aliceSudoValue else t5)
          (rawSet (rawSet
            (match api.sessionStartBlockKey with
              | .error _ =>
                rawDelete (mergeStorage prefixes storage forkedSpec.top).1 lastRuntimeUpgradeKey
              | .ok k =>
                rawDelete
                  (rawDelete (mergeStorage prefixes storage forkedSpec.top).1
                    lastRuntimeUpgradeKey) k)
            codeKey ("0x".toList ++ trim runtimeHex)) forceEraKey "0x02".toList) := by
  unfold mainMerge fixParachinStates
  cases api.sessionStartBlockKey with
  | error e => by_cases ha : alice = [] <;> simp [ha]
  | ok k => by_cases ha : alice = [] <;> simp [ha]

/-- C5 (override precedence). Whatever the snapshot, the retained prefixes, the template
and the runtime hex, and also when the snapshot holds retained entries at the fixed keys,
the written document has at the code key `0x` followed by the trimmed runtime hex, at the
`Staking.ForceEra` key `0x02`, at the sudo key the fixed override value when a root
account is configured, and no entry at the `System.LastRuntimeUpgrade` key: none of these
values comes from the snapshot. -/
theorem C5_override_precedence (api : QueryApi) (prefixes : List Text)
    (storage : List (Text × Text)) (originalSpec forkedSpec : GenesisSpec)
    (runtimeHex alice : Text) :
    ∃ doc, (mainMerge api prefixes storage originalSpec forkedSpec runtimeHex alice).written =
        some doc ∧
      rawGet doc.top codeKey = some ("0x".toList ++ trim runtimeHex) ∧
      rawGet doc.top forceEraKey = some "0x02".toList ∧
      (alice ≠ [] → rawGet doc.top sudoKey = some aliceSudoValue) ∧
      rawGet doc.top lastRuntimeUpgradeKey = none := by
  obtain ⟨doc, hw, _, _, _, _, _, htop⟩ :=
    mainMerge_written api prefixes storage originalSpec forkedSpec runtimeHex alice
  obtain ⟨h1, h2, h3, h4, h5, h6⟩ := keys_distinct
  refine ⟨doc, hw, ?_, ?_, ?_, ?_⟩
  · rw [htop]
    by_cases ha : alice = []
    · simp [ha, rawGet_rawSet, h4, Ne.symm h4]
    · simp [ha, rawGet_rawSet, h4, Ne.symm h4, Ne.symm h5]
  · rw [htop]
    by_cases ha : alice = []
    · simp [ha, rawGet_rawSet]
    · simp [ha, rawGet_rawSet, Ne.symm h6]
  · intro ha
    rw [htop]
    simp [ha, rawGet_rawSet]
  · rw [htop]
    by_cases ha : alice = []
    · cases api.sessionStartBlockKey <;> simp [ha, rawGet_rawSet, rawGet_rawDelete, h1, h2]
    · cases api.sessionStartBlockKey <;>
        simp [ha, rawGet_rawSet, rawGet_rawDelete, h1, h2, h3]

/-- C5 with a snapshot holding retained entries at the code key and at the sudo key. -/
theorem C5_override_precedence_witness :
    ∃ doc, (mainMerge { sessionStartBlockKey := .error [] } [codeKey, sudoKey]
        [(codeKey, "0xdead".toList), (sudoKey, "0xbeef".toList)] demoSpec demoSpec
        " 0061736d\n".toList "//Alice".toList).written = some doc ∧
      rawGet doc.top codeKey = some ("0x".toList ++ trim " 0061736d\n".toList) ∧
      rawGet doc.top forceEraKey = some "0x02".toList ∧
      ("//Alice".toList ≠ [] → rawGet doc.top sudoKey = some aliceSudoValue) ∧
      rawGet doc.top lastRuntimeUpgradeKey = none :=
  C5_override_precedence { sessionStartBlockKey := .error [] } [codeKey, sudoKey]
    [(codeKey, "0xdead".toList), (sudoKey, "0xbeef".toList)] demoSpec demoSpec
    " 0061736d\n".toList "//Alice".toList

/-- C7 (sudo override, amended). When a root account is configured, whatever it is, the
written document has the fixed value `0xd435...a27d` at the sudo key; when none is
configured the sudo key is not overwritten: its value is what the template and the
snapshot merge left there, unless the skipped key computed from the node query is the
sudo key itself, which removes it. -/
theorem C7_sudo_override (api : QueryApi) (prefixes : List Text)
    (storage : List (Text × Text)) (originalSpec forkedSpec : GenesisSpec)
    (runtimeHex alice : Text) :
    ∃ doc, (mainMerge api prefixes storage originalSpec forkedSpec runtimeHex alice).written =
        some doc ∧
      rawGet doc.top sudoKey =
        if alice ≠ [] then some aliceSudoValue
        else
          match api.sessionStartBlockKey with
          | .ok k =>
            if k = sudoKey then none
            else rawGet (mergeStorage prefixes storage forkedSpec.top).1 sudoKey
          | .error _ => rawGet (mergeStorage prefixes storage forkedSpec.top).1 sudoKey := by
  obtain ⟨doc, hw, _, _, _, _, _, htop⟩ :=
    mainMerge_written api prefixes storage originalSpec forkedSpec runtimeHex alice
  obtain ⟨h1, h2, h3, h4, h5, h6⟩ := keys_distinct
  refine ⟨doc, hw, ?_⟩
  rw [htop]
  by_cases ha : alice = []
  · cases api.sessionStartBlockKey with
    | error e => simp [ha, rawGet_rawSet, rawGet_rawDelete, h5, h6, Ne.symm h3]
    | ok k => simp [ha, rawGet_rawSet, rawGet_rawDelete, h5, h6, Ne.symm h3]
  · simp [ha, rawGet_rawSet]

theorem sudo_fixed_of_configured (a : Text) (ha : a ≠ []) :
    ∃ doc, (mainMerge { sessionStartBlockKey := .error [] } prefixes [] demoSpec demoSpec
        [] a).written = some doc ∧
      rawGet doc.top sudoKey = some aliceSudoValue := by
  obtain ⟨doc, hw, _, _, _, _, _, htop⟩ :=
    mainMerge_written { sessionStartBlockKey := .error [] } prefixes [] demoSpec demoSpec [] a
  refine ⟨doc, hw, ?_⟩
  rw [htop]
  simp [ha, rawGet_rawSet]

/-- C7, the claim as stated fails: no encoding of accounts that tells two configured
accounts apart gives the value written at the sudo key, since that value is the same for
every configured account. -/
theorem C7_counterexample :
    ¬ ∃ encode : Text → Text,
      (∃ a b : Text, a ≠ [] ∧ b ≠ [] ∧ encode a ≠ encode b) ∧
      ∀ a : Text, a ≠ [] →
        ∃ doc, (mainMerge { sessionStartBlockKey := .error [] } prefixes [] demoSpec demoSpec
            [] a).written = some doc ∧
          rawGet doc.top sudoKey = some (encode a) := by
  rintro ⟨encode, ⟨a, b, ha, hb, hne⟩, h⟩
  obtain ⟨da, hda, hga⟩ := h a ha
  obtain ⟨db, hdb, hgb⟩ := h b hb
  obtain ⟨da1, hda1, hga1⟩ := sudo_fixed_of_configured a ha
  obtain ⟨db1, hdb1, hgb1⟩ := sudo_fixed_of_configured b hb
  rw [hda] at hda1
  rw [hdb] at hdb1
  cases hda1
  cases hdb1
  rw [hga1] at hga
  rw [hgb1] at hgb
  exact hne ((Option.some.inj hga).symm.trans (Option.some.inj hgb))

/-- C8 (the code at the failing input). When the key query throws, the promise of
`fixParachinStates` is rejected, and the run still writes the forked document and exits
with code 0. -/
theorem C8_rejection_is_dropped (err : Text) (prefixes : List Text)
    (storage : List (Text × Text)) (originalSpec forkedSpec : GenesisSpec)
    (runtimeHex alice : Text) :
    (mainMerge { sessionStartBlockKey := .error err } prefixes storage originalSpec
        forkedSpec runtimeHex alice).fixPromise = Promise.rejected err ∧
    (mainMerge { sessionStartBlockKey := .error err } prefixes storage originalSpec
        forkedSpec runtimeHex alice).written ≠ none ∧
    (mainMerge { sessionStartBlockKey := .error err } prefixes storage originalSpec
        forkedSpec runtimeHex alice).exitCode = 0 := by
  simp [mainMerge, fixParachinStates]

/-- C10 (identity fields). For every original and template document, the written
document has `name = original.name + "-fork"`, `id = original.id + "-fork"`, the
`protocolId` of the original, `relayChain = "tokyo"` and `paraId = 1000`. -/
theorem C10_identity_fields (api : QueryApi) (prefixes : List Text)
    (storage : List (Text × Text)) (originalSpec forkedSpec : GenesisSpec)
    (runtimeHex alice : Text) :
    ∃ doc, (mainMerge api prefixes storage originalSpec forkedSpec runtimeHex alice).written =
        some doc ∧
      doc.name = originalSpec.name ++ "-fork".toList ∧
      doc.id = originalSpec.id ++ "-fork".toList ∧
      doc.protocolId = originalSpec.protocolId ∧
      doc.relayChain = some "tokyo".toList ∧
      doc.paraId = some 1000 := by
  obtain ⟨doc, hw, h1, h2, h3, h4, h5, _⟩ :=
    mainMerge_written api prefixes storage originalSpec forkedSpec runtimeHex alice
  exact ⟨doc, hw, h1, h2, h3, h4, h5⟩

/-! ## Prefix registry -/

set_option maxRecDepth 100000 in
theorem hexByte_eq :
    ∀ i : Fin 256, hexByte i.val = [hexDigit (i.val / 16), hexDigit (i.val % 16)] := by
  decide

theorem hexDigit_inj : ∀ a b : Fin 16, hexDigit a.val = hexDigit b.val → a = b := by
  decide

theorem hexByte_length (i : Nat) (hi : i < 256) : (hexByte i).length = 2 := by
  have := hexByte_eq ⟨i, hi⟩
  simp only at this
  rw [this]
  rfl

theorem hexByte_inj (i j : Nat) (hi : i < 256) (hj : j < 256) (h : hexByte i = hexByte j) :
    i = j := by
  have h1 := hexByte_eq ⟨i, hi⟩
  have h2 := hexByte_eq ⟨j, hj⟩
  simp only at h1 h2
  rw [h1, h2] at h
  simp only [List.cons.injEq, and_true] at h
  have ha := hexDigit_inj ⟨i / 16, by omega⟩ ⟨j / 16, by omega⟩ h.1
  have hb := hexDigit_inj ⟨i % 16, by omega⟩ ⟨j % 16, by omega⟩ h.2
  simp only [Fin.mk.injEq] at ha hb
  omega

theorem startsWith_iff (s pfx : Text) : startsWith s pfx = true ↔ pfx <+: s := by
  simp [startsWith]

theorem startsWith_of_append (s pfx x : Text) (h : startsWith s (pfx ++ x) = true) :
    startsWith s pfx = true := by
  rw [startsWith_iff] at h ⊢
  exact (List.prefix_append pfx x).trans h

/-! ## Lemmas on the hierarchical fetcher -/

theorem Writer.Holds.chunksFetched {pre : Text} {P : List (Text × Text)} {w : Writer}
    (h : Writer.Holds pre P w) (n : Nat) :
    Writer.Holds pre P { w with chunksFetched := n } := h

theorem fetchChunks_spec {Blk : Type} (send : Text → Blk → List (Text × Text)) (blk : Blk)
    (pre : Text) :
    ∀ (d : Nat) (pfx : Text) (P : List (Text × Text)) (w : Writer), Writer.Holds pre P w →
      Writer.Holds pre (P ++ leafPairs send blk d pfx) (fetchChunks send blk d pfx w) ∧
      (fetchChunks send blk d pfx w).chunksFetched = w.chunksFetched + 256 ^ d := by
  intro d
  induction d with
  | zero =>
    intro pfx P w h
    simp only [fetchChunks, leafPairs, pow_zero, writePairs_chunksFetched, and_true]
    exact (h.writePairs _).chunksFetched _
  | succ d ih =>
    intro pfx P w h
    have key : ∀ (l : List Nat) (P : List (Text × Text)) (w : Writer), Writer.Holds pre P w →
        Writer.Holds pre
          (P ++ l.flatMap (fun i => leafPairs send blk d (pfx ++ hexByte i)))
          (l.foldl (fun acc i => fetchChunks send blk d (pfx ++ hexByte i) acc) w) ∧
        (l.foldl (fun acc i => fetchChunks send blk d (pfx ++ hexByte i) acc) w).chunksFetched =
          w.chunksFetched + l.length * 256 ^ d := by
      intro l
      induction l with
      | nil => intro P w h; simpa using h
      | cons i r ihr =>
        intro P w h
        obtain ⟨h1, h2⟩ := ih (pfx ++ hexByte i) P w h
        obtain ⟨h3, h4⟩ := ihr _ _ h1
        simp only [List.foldl_cons, List.flatMap_cons, List.length_cons]
        refine ⟨by simpa [List.append_assoc] using h3, ?_⟩
        rw [h4, h2, Nat.add_mul]
        omega
    obtain ⟨h1, h2⟩ := key (List.range 256) P w h
    rw [fetchChunks, leafPairs]
    refine ⟨h1, ?_⟩
    rw [h2, List.length_range, pow_succ]
    omega

/-! ## The leaf prefixes partition the keys that are long enough -/

theorem flatMap_indicator_of_none {ι α : Type} (e : α) (p : ι → Bool) (is : List ι)
    (h : ∀ i ∈ is, p i = false) :
    is.flatMap (fun i => if p i = true then [e] else []) = [] := by
  induction is with
  | nil => rfl
  | cons a r ih =>
    have ha := h a (by simp)
    have hr := ih (fun i hi => h i (by simp [hi]))
    simp [List.flatMap_cons, ha, hr]

theorem flatMap_indicator_of_unique {ι α : Type} (e : α) (p : ι → Bool) (is : List ι)
    (i : ι) (hi : i ∈ is) (hp : p i = true) (hu : ∀ j ∈ is, p j = true → j = i)
    (hnd : is.Nodup) :
    is.flatMap (fun i => if p i = true then [e] else []) = [e] := by
  induction is with
  | nil => simp at hi
  | cons a r ih =>
    have hnd2 := List.nodup_cons.mp hnd
    by_cases hpa : p a = true
    · have hai : a = i := hu a (by simp) hpa
      have hr : r.flatMap (fun i => if p i = true then [e] else []) = [] := by
        apply flatMap_indicator_of_none
        intro j hj
        by_contra hpj
        have hji : j = i := hu j (by simp [hj]) (by simpa using hpj)
        exact hnd2.1 (hai ▸ hji ▸ hj)
      simp [List.flatMap_cons, hpa, hr]
    · have hir : i ∈ r := by
        rcases List.mem_cons.mp hi with h | h
        · exact absurd (h ▸ hp) hpa
        · exact h
      have hr := ih hir (fun j hj => hu j (by simp [hj])) hnd2.2
      simp [List.flatMap_cons, hpa, hr]

theorem flatMap_filter_perm {ι α : Type} (is : List ι) (hnd : is.Nodup) (P : ι → α → Bool)
    (Q : α → Bool) (store : List α)
    (h1 : ∀ e ∈ store, Q e = true →
      ∃ i ∈ is, P i e = true ∧ ∀ j ∈ is, P j e = true → j = i)
    (h2 : ∀ e ∈ store, Q e = false → ∀ i ∈ is, P i e = false) :
    (is.flatMap (fun i => store.filter (P i))).Perm (store.filter Q) := by
  induction store with
  | nil => simp
  | cons e t ih =>
    have iht := ih (fun x hx => h1 x (by simp [hx])) (fun x hx => h2 x (by simp [hx]))
    have hsplit : (fun i => (e :: t).filter (P i)) =
        (fun i => (if P i e = true then [e] else []) ++ t.filter (P i)) := by
      funext i
      by_cases hp : P i e = true <;> simp [List.filter_cons, hp]
    rw [hsplit]
    refine (List.flatMap_append_perm is _ _).symm.trans ?_
    by_cases hq : Q e = true
    · obtain ⟨i, hi, hp, hu⟩ := h1 e (by simp) hq
      rw [flatMap_indicator_of_unique e (fun i => P i e) is i hi hp hu hnd]
      simpa [List.filter_cons, hq] using iht
    · have hq2 : Q e = false := by simpa using hq
      rw [flatMap_indicator_of_none e (fun i => P i e) is (h2 e (by simp) hq2)]
      simpa [List.filter_cons, hq] using iht

theorem hexOfBytes_cons (b : Fin 256) (bs : List (Fin 256)) :
    hexOfBytes (b :: bs) = hexByte b.val ++ hexOfBytes bs := by
  simp [hexOfBytes]

/-- A key that extends `pfx` by at least one byte starts with `pfx ++ hexByte i` for
exactly one `i`, its next byte. -/
theorem next_byte (pfx key : Text) (b : Fin 256) (bs : List (Fin 256))
    (hkey : key = pfx ++ hexOfBytes (b :: bs)) (i : Nat) (hi : i < 256) :
    startsWith key (pfx ++ hexByte i) = true ↔ i = b.val := by
  rw [startsWith_iff, hkey, hexOfBytes_cons, List.prefix_append_right_inj]
  constructor
  · rintro ⟨t, ht⟩
    have hlen : (hexByte i).length = (hexByte b.val).length := by
      rw [hexByte_length i hi, hexByte_length b.val b.isLt]
    exact hexByte_inj i b.val hi b.isLt (List.append_inj_left ht hlen)
  · rintro rfl
    exact List.prefix_append _ _

theorem leafPairs_perm {Blk : Type} (send : Text → Blk → List (Text × Text)) (blk : Blk)
    (store : List (Text × Text))
    (hsend : ∀ pfx, send pfx blk = store.filter (fun e => startsWith e.1 pfx)) :
    ∀ (d : Nat) (pfx : Text),
      (∀ e ∈ store, startsWith e.1 pfx = true →
        ∃ bs : List (Fin 256), d ≤ bs.length ∧ e.1 = pfx ++ hexOfBytes bs) →
      (leafPairs send blk d pfx).Perm (store.filter (fun e => startsWith e.1 pfx)) := by
  intro d
  induction d with
  | zero => intro pfx _; rw [leafPairs, hsend]
  | succ d ih =>
    intro pfx hlong
    rw [leafPairs]
    have hstep : ((List.range 256).flatMap
          (fun i => leafPairs send blk d (pfx ++ hexByte i))).Perm
        ((List.range 256).flatMap
          (fun i => store.filter (fun e => startsWith e.1 (pfx ++ hexByte i)))) := by
      apply List.Perm.flatMap_left
      intro i hi
      have hi256 : i < 256 := List.mem_range.mp hi
      apply ih
      intro e he hsw
      obtain ⟨bs, hlen, hkey⟩ := hlong e he (startsWith_of_append _ _ _ hsw)
      cases bs with
      | nil => simp at hlen
      | cons b bs1 =>
        have hib := (next_byte pfx e.1 b bs1 hkey i hi256).mp hsw
        refine ⟨bs1, by simpa using hlen, ?_⟩
        rw [hkey, hexOfBytes_cons, hib, List.append_assoc]
    refine hstep.trans ?_
    apply flatMap_filter_perm (List.range 256) (List.nodup_range 256)
      (fun i e => startsWith e.1 (pfx ++ hexByte i)) (fun e => startsWith e.1 pfx) store
    · intro e he hq
      obtain ⟨bs, hlen, hkey⟩ := hlong e he hq
      cases bs with
      | nil => simp at hlen
      | cons b bs1 =>
        refine ⟨b.val, List.mem_range.mpr b.isLt, ?_, ?_⟩
        · exact (next_byte pfx e.1 b bs1 hkey b.val b.isLt).mpr rfl
        · intro j hj hpj
          exact (next_byte pfx e.1 b bs1 hkey j (List.mem_range.mp hj)).mp hpj
    · intro e _ hq i _
      by_contra hp
      have hp1 : startsWith e.1 (pfx ++ hexByte i) = true := by simpa using hp
      rw [startsWith_of_append _ _ _ hp1] at hq
      exact Bool.noConfusion hq

/-- Keys shorter than the leaf prefixes are returned by no leaf request. -/
theorem leafPairs_of_short (store : List (Text × Text)) :
    ∀ (d : Nat) (pfx : Text), (∀ e ∈ store, e.1.length < pfx.length + 2 * d) →
      leafPairs (storeSend store) () d pfx = [] := by
  intro d
  induction d with
  | zero =>
    intro pfx h
    rw [leafPairs, storeSend, List.filter_eq_nil_iff]
    intro e he hsw
    have hpre : pfx <+: e.1 := (startsWith_iff _ _).mp hsw
    have := hpre.length_le
    have := h e he
    omega
  | succ d ih =>
    intro pfx h
    rw [leafPairs, List.flatMap_eq_nil_iff]
    intro i hi
    apply ih
    intro e he
    have := h e he
    rw [List.length_append, hexByte_length i (List.mem_range.mp hi)]
    omega

theorem map_fst_val (store : List (Text × Text)) (val : Text → Text)
    (hval : ∀ e ∈ store, val e.1 = e.2) :
    (store.map Prod.fst).map (fun k => (id k, id (val k))) = store := by
  induction store with
  | nil => rfl
  | cons e t ih =>
    have h1 := hval e (by simp)
    have h2 := ih (fun x hx => hval x (by simp [hx]))
    simp only [List.map_cons, id, h1]
    simp only [List.map_map, id] at h2
    simp only [List.map_map]
    rw [h2]

/-- C9 (partition completeness, amended). For every depth `d` and every key space in
which each key is `0x` followed by at least `d` bytes written as two lowercase hex
digits, against a node whose `state_getPairs(prefix, at)` returns exactly the pairs whose
key starts with the prefix, the file written around `fetchChunks("0x", d, ...)` in
sequential mode parses to a list of pairs that is a permutation of the key space (every
pair once), after `256 ^ d` leaf requests; and the paginated fetcher, against a node
paging the same key space in ascending key order, writes the key space itself, so both
produce the same set of pairs. -/
theorem C9_partition_complete {Blk : Type} (send : Text → Blk → List (Text × Text))
    (blk : Blk) (store : List (Text × Text)) (d : Nat)
    (hsend : ∀ pfx, send pfx blk = store.filter (fun e => startsWith e.1 pfx))
    (hlong : ∀ e ∈ store, ∃ bs : List (Fin 256),
      d ≤ bs.length ∧ e.1 = ['0', 'x'] ++ hexOfBytes bs)
    (api : PagedApi Text Text Blk) (B : Nat) (hB : 1 ≤ B) (val : Text → Text)
    (hs : (store.map Prod.fst).Sorted (· < ·))
    (hpaged : ∀ c, api.getKeysPaged ['0', 'x'] B c blk = pageAfter (store.map Prod.fst) B c)
    (hvals : ∀ keys, api.queryStorageAt keys blk = keys.map val)
    (hval : ∀ e ∈ store, val e.1 = e.2)
    (fuel : Nat) (hfuel : store.length / B + 1 ≤ fuel) :
    ∃ (pairs : List (Text × Text)) (st : MineState Text) (text : Text),
      JSON.parse (mainFetchChunks send blk d) = some (Json.arr (pairs.map pairJson)) ∧
      pairs.Perm store ∧
      (fetchChunks send blk d ['0', 'x'] (Writer.init.write ['['])).chunksFetched = 256 ^ d ∧
      mainFetchMine B api id id blk fuel = .ok (st, text) ∧
      JSON.parse text = some (Json.arr (store.map pairJson)) := by
  obtain ⟨h1, h2⟩ := fetchChunks_spec send blk ['['] d ['0', 'x'] [] _
    Writer.holds_init_bracket
  have hperm := leafPairs_perm send blk store hsend d ['0', 'x']
    (fun e he _ => hlong e he)
  have hall : store.filter (fun e => startsWith e.1 ['0', 'x']) = store := by
    rw [List.filter_eq_self]
    intro e he
    obtain ⟨bs, _, hkey⟩ := hlong e he
    rw [startsWith_iff, hkey]
    exact List.prefix_append _ _
  rw [hall] at hperm
  obtain ⟨st, hrun, hholds, _, _⟩ := mainFetchMine_spec B hB api id id blk
    (store.map Prod.fst) val hs hpaged hvals fuel (by simpa using hfuel)
  rw [map_fst_val store val hval] at hholds
  refine ⟨leafPairs send blk d ['0', 'x'], st, _, ?_, hperm, ?_, hrun, hholds.parse_close⟩
  · have := h1.parse_close
    simpa [mainFetchChunks, snapshotJson] using this
  · rw [h2]; simp [Writer.init, Writer.write]

/-- C9 at depth 2 for a key space of two two-byte keys. -/
theorem C9_partition_complete_witness :
    ∃ (pairs : List (Text × Text)) (st : MineState Text) (text : Text),
      JSON.parse (mainFetchChunks (storeSend demoStore3) () 2) =
        some (Json.arr (pairs.map pairJson)) ∧
      pairs.Perm demoStore3 ∧
      (fetchChunks (storeSend demoStore3) () 2 ['0', 'x']
        (Writer.init.write ['['])).chunksFetched = 256 ^ 2 ∧
      mainFetchMine 1 (storeNode demoStore3) id id () 5 = .ok (st, text) ∧
      JSON.parse text = some (Json.arr (demoStore3.map pairJson)) :=
  C9_partition_complete (storeSend demoStore3) () demoStore3 2 (fun _ => rfl)
    (by
      intro e he
      simp only [demoStore3, List.mem_cons, List.mem_singleton, List.not_mem_nil,
        or_false] at he
      rcases he with rfl | rfl
      · exact ⟨[10, 1], by decide, by decide⟩
      · exact ⟨[255, 2], by decide, by decide⟩)
    (storeNode demoStore3) 1 (by decide) (fun k => (demoStore3.lookup k).getD [])
    (by decide) (fun _ => rfl) (fun _ => rfl) (by decide) 5 (by decide)

/-- C9, the claim as stated fails: at depth 6 the key space holding the five-byte key
`:code` (`0x3a636f6465`) is missed by every leaf request, and the file written is `[]`. -/
theorem C9_counterexample :
    mainFetchChunks (storeSend codeStore) () 6 = ['[', ']'] ∧
    JSON.parse (mainFetchChunks (storeSend codeStore) () 6) = some (Json.arr []) ∧
    codeStore = [("0x3a636f6465".toList, "0x00".toList)] := by
  have hnil : leafPairs (storeSend codeStore) () 6 ['0', 'x'] = [] := by
    apply leafPairs_of_short
    intro e he
    simp only [codeStore, List.mem_singleton] at he
    subst he
    decide
  obtain ⟨h1, _⟩ := fetchChunks_spec (storeSend codeStore) () ['['] 6 ['0', 'x'] [] _
    Writer.holds_init_bracket
  rw [hnil] at h1
  have htext : mainFetchChunks (storeSend codeStore) () 6 = ['[', ']'] := by
    have hs := h1.1
    simp only [List.append_nil, List.map_nil, stringifyElems_nil] at hs
    simp only [mainFetchChunks, Writer.write] at hs ⊢
    rw [hs]
    rfl
  refine ⟨htext, ?_, rfl⟩
  rw [htext]
  rfl

end ForkOff
